import Mathlib

/-!
Shallow embedding of `src/extract_vocabulary.py` (class `VocabularyExtractor`).

Python strings are modelled as `List Char` (`Str`).  The vocabulary store
file is a line-oriented text file in which every record written by the
program is terminated by a newline; it is modelled as the list of its
lines (`List Str`), with `fileBytes` recovering the byte sequence.
Each Python string operation used by the script (`strip`, `lower`,
`split`, substring membership, the regex split on runs of whitespace)
is embedded as an executable function on `Str` below.
-/

namespace Vocab

/-- Python strings, modelled as lists of characters. -/
abbrev Str := List Char

/-- Whitespace test for the characters the script can meet on one OCR line
(models the character class matched by Python's strip and the regex). -/
def isWs (c : Char) : Bool :=
  c == ' ' || c == '\t' || c == '\n' || c == '\r'

/-- Python `s.lower()` (ASCII range, which is all the fixed
denylist/header words use). -/
def strLower (s : Str) : Str := s.map Char.toLower

/-- Python `s.strip()`: drop whitespace from both ends. -/
def strip (s : Str) : Str :=
  ((s.dropWhile isWs).reverse.dropWhile isWs).reverse

/-- Python `s.split(sep)` for a one-character separator: empty parts are
kept, and the split of the empty string is one empty part. -/
def splitCh (sep : Char) : Str → List Str
  | [] => [[]]
  | c :: cs =>
    if c == sep then [] :: splitCh sep cs
    else
      match splitCh sep cs with
      | [] => [[c]]
      | t :: ts => (c :: t) :: ts

/-- Does `pat` match at the head of `s`? -/
def leadMatch : Str → Str → Bool
  | [], _ => true
  | _ :: _, [] => false
  | p :: ps, c :: cs => p == c && leadMatch ps cs

/-- Python `pat in s`: substring containment. -/
def subIn (pat : Str) : Str → Bool
  | [] => leadMatch pat []
  | c :: cs => leadMatch pat (c :: cs) || subIn pat cs

/-- Separator test for the regex split: a pending whitespace run is a
separator of re.split r-squiggle-s 2-or-more or tab when its length is at
least two, or when it is a single tab character. -/
def sepQ (pend : Str) : Bool := 2 ≤ pend.length || pend == ['\t']

/-- Scanner for Python `re.split` on (two or more whitespace characters)
or (one tab): `tok` is the reversed current token, `pend` the reversed
pending maximal whitespace run not yet classified. -/
def splitWsGo (tok pend : Str) : Str → List Str
  | [] => if sepQ pend then [tok.reverse, []] else [(pend ++ tok).reverse]
  | c :: cs =>
    if isWs c then splitWsGo tok (c :: pend) cs
    else if sepQ pend then tok.reverse :: splitWsGo [c] [] cs
    else splitWsGo (c :: (pend ++ tok)) [] cs

/-- Python `re.split` on runs of at least two whitespace characters or a
single tab (the `words = re.split(...)` line of `parse_vocabulary_table`). -/
def splitWsRe (s : Str) : List Str := splitWsGo [] [] s

/-- Header denylist of `parse_vocabulary_table` (line 84 of the script). -/
def tableHeaders : List Str :=
  ["german".toList, "english".toList, "spanish".toList, "french".toList,
   "word strength".toList, "strength".toList]

/-- Header denylist of `smart_parse_vocabulary` (lines 121-122). -/
def smartHeaders : List Str :=
  ["german".toList, "english".toList, "spanish".toList, "french".toList,
   "translation".toList, "word strength".toList]

/-- First-token denylist of the whitespace branch (line 101). -/
def tableSkips : List Str :=
  ["weak".toList, "strong".toList, "new".toList, "learning".toList]

/-- Line denylist of the adjacent-line strategy (lines 131-132). -/
def smartSkips : List Str :=
  ["weak".toList, "strong".toList, "new".toList]

/-- Case-insensitive test of `parse_vocabulary_table`'s header denylist. -/
def isTableHeader (line : Str) : Bool :=
  tableHeaders.any (fun h => subIn h (strLower line))

/-- Case-insensitive test of `smart_parse_vocabulary`'s header denylist. -/
def isSmartHeader (line : Str) : Bool :=
  smartHeaders.any (fun h => subIn h (strLower line))

/-- Does the first whitespace-branch token hit the skip denylist? -/
def tableSkipHit (w : Str) : Bool :=
  tableSkips.any (fun sk => subIn sk (strLower w))

/-- Does a line of the adjacent-line strategy hit the skip denylist? -/
def smartSkipHit (l : Str) : Bool :=
  smartSkips.any (fun sk => subIn sk (strLower l))

/-- A vocabulary candidate: (source term, target term, note). -/
abbrev Entry := Str × Str × Str

/-- Entries `parse_vocabulary_table` extracts from one raw line
(lines 78-102 of the script). -/
def tableLineEntries (line0 : Str) : List Entry :=
  let line := strip line0
  if line.isEmpty then []
  else if isTableHeader line then []
  else if line.contains '|' then
    match (splitCh '|' line).map strip with
    | p0 :: p1 :: rest =>
      if !p0.isEmpty && !p1.isEmpty then [(p0, p1, rest.headD [])] else []
    | _ => []
  else
    match ((splitWsRe line).map strip).filter (fun w => !w.isEmpty) with
    | w0 :: w1 :: _ => if tableSkipHit w0 then [] else [(w0, w1, [])]
    | _ => []

/-- Python `parse_vocabulary_table`: table extraction over all lines. -/
def parse_vocabulary_table (text : Str) : List Entry :=
  ((splitCh '\n' text).map tableLineEntries).flatten

/-- Non-ASCII test of line 135: any character above code point 127. -/
def hasForeignChars (line : Str) : Bool :=
  line.any (fun c => 127 < c.toNat)

/-- Fixed foreign-script-prone language set of line 136. -/
def foreignScriptLangs : List String := ["German", "Spanish", "French"]

/-- Adjacent-line strategy of `smart_parse_vocabulary` (lines 117-137):
each line is paired with the immediately following raw line. -/
def adjacentEntries (lang : String) : List Str → List Entry
  | [] => []
  | [_] => []
  | l0 :: l1 :: rest =>
    let line := strip l0
    let here :=
      if line.isEmpty || isSmartHeader line then []
      else
        let nl := strip l1
        if !line.isEmpty && !nl.isEmpty && !smartSkipHit line && !smartSkipHit nl
            && (hasForeignChars line || foreignScriptLangs.contains lang) then
          [(line, nl, ([] : Str))]
        else []
    here ++ adjacentEntries lang (l1 :: rest)

/-- Python `smart_parse_vocabulary`: table strategy first, then the
adjacent-line strategy over the same raw lines. -/
def smart_parse_vocabulary (lang : String) (text : Str) : List Entry :=
  parse_vocabulary_table text ++ adjacentEntries lang (splitCh '\n' text)

/-- Key a stored line contributes in `load_existing_vocabulary`
(lines 147-151): strip the line, and if it holds a bar, the stripped,
lowercased first bar-separated field. -/
def lineKey (line0 : Str) : Option Str :=
  let line := strip line0
  if line.contains '|' then
    some (strLower (strip ((splitCh '|' line).headD [])))
  else none

/-- Python `load_existing_vocabulary` on the store file's lines. -/
def loadKeys (file : List Str) : List Str := file.filterMap lineKey

/-- Note defaulting of line 166: Python `notes or "from image"`. -/
def dflt (n : Str) : Str := if n.isEmpty then "from image".toList else n

/-- The merge loop of `append_vocabulary` (lines 164-167): returns the
final existing-key set and the accepted entries in acceptance order. -/
def mergeGo (existing : List Str) : List Entry → List Str × List Entry
  | [] => (existing, [])
  | (f, e, n) :: rest =>
    if existing.contains (strLower f) then mergeGo existing rest
    else
      let r := mergeGo (strLower f :: existing) rest
      (r.1, (f, e, dflt n) :: r.2)

/-- The store line written for one accepted entry (line 172), without its
terminating newline. -/
def entryLine (e : Entry) : Str := e.1 ++ '|' :: e.2.1 ++ '|' :: e.2.2

/-- Python `append_vocabulary`: load the keys, merge, and append one line
per accepted entry — writing only when something was accepted.  Returns
the file contents after the call and the count of new entries. -/
def append_vocabulary (file : List Str) (vocab : List Entry) :
    List Str × Nat :=
  if vocab.isEmpty then (file, 0)
  else
    let r := mergeGo (loadKeys file) vocab
    (if r.2.isEmpty then file else file ++ r.2.map entryLine, r.2.length)

/-- Byte sequence of the store file: every line newline-terminated. -/
def fileBytes (file : List Str) : Str :=
  (file.map (fun l => l ++ ['\n'])).flatten

/-- Result record of `process_directory`. -/
structure RunResult where
  processedFiles : List String
  totalNew : Nat
  file : List Str
deriving DecidableEq, Repr

/-- One loop iteration of `process_directory` (lines 188-208): the image
is (file name, raw OCR text); OCR output is stripped (line 68), an image
with no text or no parsed vocabulary is skipped. -/
def processOne (lang : String) (st : RunResult) (img : String × Str) :
    RunResult :=
  let text := strip img.2
  if text.isEmpty then st
  else
    let vocab := smart_parse_vocabulary lang text
    if vocab.isEmpty then st
    else
      let r := append_vocabulary st.file vocab
      ⟨st.processedFiles ++ [img.1], st.totalNew + r.2, r.1⟩

/-- Python `process_directory` over a batch of images, given the store
file contents: `none` models the no-images error return. -/
def process_directory (lang : String) (file : List Str)
    (imgs : List (String × Str)) : Option RunResult :=
  if imgs.isEmpty then none
  else some (imgs.foldl (processOne lang) ⟨[], 0, file⟩)

/-! ### Helper lemmas about the string primitives -/

theorem dropWhile_head_false {p : Char → Bool} {l : Str} {c : Char} {cs : Str}
    (h : l.dropWhile p = c :: cs) : p c = false := by
  induction l with
  | nil => simp [List.dropWhile] at h
  | cons a as ih =>
    by_cases hp : p a = true
    · rw [List.dropWhile_cons_of_pos hp] at h
      exact ih h
    · rw [List.dropWhile_cons_of_neg hp] at h
      cases h
      simpa using hp

theorem dropWhile_head?_false {p : Char → Bool} {l : Str} {c : Char}
    (h : (l.dropWhile p).head? = some c) : p c = false := by
  cases hd : l.dropWhile p with
  | nil => rw [hd] at h; simp at h
  | cons x xs =>
    rw [hd] at h
    simp only [List.head?_cons, Option.some.injEq] at h
    subst h
    exact dropWhile_head_false hd

theorem dropWhile_eq_self_of_head? {p : Char → Bool} {l : Str}
    (h : ∀ c, l.head? = some c → p c = false) : l.dropWhile p = l := by
  cases l with
  | nil => rfl
  | cons a as =>
    have := h a (by simp)
    rw [List.dropWhile_cons_of_neg (by simp [this])]

theorem getLast?_dropWhile {p : Char → Bool} {l : Str}
    (h : l.dropWhile p ≠ []) : (l.dropWhile p).getLast? = l.getLast? := by
  induction l with
  | nil => simp at h
  | cons a as ih =>
    by_cases hp : p a = true
    · rw [List.dropWhile_cons_of_pos hp] at h ⊢
      have has : as ≠ [] := by
        intro hnil; rw [hnil] at h; simp at h
      rw [ih h]
      cases as with
      | nil => exact absurd rfl has
      | cons b bs => simp [List.getLast?_cons_cons]
    · rw [List.dropWhile_cons_of_neg hp]

theorem strip_head?_false {s : Str} {c : Char}
    (h : (strip s).head? = some c) : isWs c = false := by
  unfold strip at h
  rw [List.head?_reverse] at h
  have hne : ((s.dropWhile isWs).reverse.dropWhile isWs) ≠ [] := by
    intro hnil; rw [hnil] at h; simp at h
  rw [getLast?_dropWhile hne, List.getLast?_reverse] at h
  exact dropWhile_head?_false h

theorem strip_getLast?_false {s : Str} {c : Char}
    (h : (strip s).getLast? = some c) : isWs c = false := by
  unfold strip at h
  rw [List.getLast?_reverse] at h
  exact dropWhile_head?_false h

theorem strip_of_ends {l : Str}
    (h1 : ∀ c, l.head? = some c → isWs c = false)
    (h2 : ∀ c, l.getLast? = some c → isWs c = false) : strip l = l := by
  unfold strip
  rw [dropWhile_eq_self_of_head? h1]
  rw [dropWhile_eq_self_of_head? (by
    intro c hc
    rw [List.head?_reverse] at hc
    exact h2 c hc)]
  exact List.reverse_reverse l

theorem strip_idem (s : Str) : strip (strip s) = strip s :=
  strip_of_ends (fun _ hc => strip_head?_false hc)
    (fun _ hc => strip_getLast?_false hc)

theorem splitCh_ne_nil (sep : Char) (s : Str) : splitCh sep s ≠ [] := by
  cases s with
  | nil => simp [splitCh]
  | cons c cs =>
    simp only [splitCh]
    split
    · simp
    · split <;> simp

theorem splitCh_append_sep {sep : Char} {a : Str}
    (ha : sep ∉ a) (b : Str) :
    splitCh sep (a ++ sep :: b) = a :: splitCh sep b := by
  induction a with
  | nil => simp [splitCh]
  | cons c cs ih =>
    have hc : (c == sep) = false := by
      simp only [List.mem_cons, not_or] at ha
      simp [beq_iff_eq]
      exact fun h => ha.1 h.symm
    have hcs : sep ∉ cs := by
      simp only [List.mem_cons, not_or] at ha
      exact ha.2
    simp only [List.cons_append, splitCh, hc, Bool.false_eq_true, if_false,
      List.append_eq]
    rw [ih hcs]

/-! ### Helper lemmas about the merge loop and the store -/

theorem dflt_ne_nil (n : Str) : dflt n ≠ [] := by
  cases n with
  | nil => decide
  | cons c cs => simp [dflt]

theorem mergeGo_fst (E : List Str) (vocab : List Entry) :
    (mergeGo E vocab).1 =
      ((mergeGo E vocab).2.map (fun x => strLower x.1)).reverse ++ E := by
  induction vocab generalizing E with
  | nil => simp [mergeGo]
  | cons c rest ih =>
    obtain ⟨f, e, n⟩ := c
    simp only [mergeGo]
    split
    · exact ih E
    · simp only [List.map_cons, List.reverse_cons, List.append_assoc,
        List.singleton_append]
      exact ih (strLower f :: E)

theorem mergeGo_none {E : List Str} {vocab : List Entry}
    (h : ∀ c ∈ vocab, strLower c.1 ∈ E) : mergeGo E vocab = (E, []) := by
  induction vocab with
  | nil => rfl
  | cons c rest ih =>
    obtain ⟨f, e, n⟩ := c
    have hfb : E.contains (strLower f) = true := by
      simpa using h (f, e, n) (by simp)
    simp only [mergeGo]
    rw [if_pos hfb]
    exact ih (fun c hc => h c (List.mem_cons_of_mem _ hc))

theorem mergeGo_nil_out {E : List Str} {vocab : List Entry}
    (h : (mergeGo E vocab).2 = []) : ∀ c ∈ vocab, strLower c.1 ∈ E := by
  induction vocab generalizing E with
  | nil => simp
  | cons c rest ih =>
    obtain ⟨f, e, n⟩ := c
    intro x hx
    rw [List.mem_cons] at hx
    simp only [mergeGo] at h
    by_cases hE : E.contains (strLower f) = true
    · rw [if_pos hE] at h
      rcases hx with hx | hx
      · cases hx; simpa using hE
      · exact ih h x hx
    · rw [if_neg hE] at h
      simp at h

theorem mergeGo_all_keys {E : List Str} {vocab : List Entry} :
    ∀ c ∈ vocab, strLower c.1 ∈ (mergeGo E vocab).1 := by
  induction vocab generalizing E with
  | nil => simp
  | cons c rest ih =>
    obtain ⟨f, e, n⟩ := c
    intro x hx
    rw [List.mem_cons] at hx
    simp only [mergeGo]
    by_cases hE : E.contains (strLower f) = true
    · rw [if_pos hE]
      rcases hx with hx | hx
      · cases hx
        rw [mergeGo_fst]
        exact List.mem_append_right _ (by simpa using hE)
      · exact ih x hx
    · rw [if_neg hE]
      rcases hx with hx | hx
      · cases hx
        show strLower f ∈ (mergeGo (strLower f :: E) rest).1
        rw [mergeGo_fst]
        exact List.mem_append_right _ (by simp)
      · exact ih x hx

theorem mergeGo_entry_shape {E : List Str} {vocab : List Entry} {x : Entry}
    (h : x ∈ (mergeGo E vocab).2) :
    ∃ c ∈ vocab, x = (c.1, c.2.1, dflt c.2.2) := by
  induction vocab generalizing E with
  | nil => simp [mergeGo] at h
  | cons c rest ih =>
    obtain ⟨f, e, n⟩ := c
    simp only [mergeGo] at h
    by_cases hE : E.contains (strLower f) = true
    · rw [if_pos hE] at h
      obtain ⟨c', hc', hx⟩ := ih h
      exact ⟨c', List.mem_cons_of_mem _ hc', hx⟩
    · rw [if_neg hE] at h
      rw [List.mem_cons] at h
      rcases h with h | h
      · exact ⟨(f, e, n), by simp, h⟩
      · obtain ⟨c', hc', hx⟩ := ih h
        exact ⟨c', List.mem_cons_of_mem _ hc', hx⟩

theorem mergeGo_key_notin {E : List Str} {vocab : List Entry} {x : Entry}
    (h : x ∈ (mergeGo E vocab).2) : strLower x.1 ∉ E := by
  induction vocab generalizing E with
  | nil => simp [mergeGo] at h
  | cons c rest ih =>
    obtain ⟨f, e, n⟩ := c
    simp only [mergeGo] at h
    by_cases hE : E.contains (strLower f) = true
    · rw [if_pos hE] at h
      exact ih h
    · rw [if_neg hE] at h
      rw [List.mem_cons] at h
      rcases h with h | h
      · subst h
        simpa using hE
      · intro hmem
        exact ih h (List.mem_cons_of_mem _ hmem)

theorem loadKeys_append (a b : List Str) :
    loadKeys (a ++ b) = loadKeys a ++ loadKeys b :=
  List.filterMap_append a b lineKey

/-! ### Shape of the entries the two parsing strategies can emit -/

theorem tableLineEntries_shape {l0 : Str} {x : Entry}
    (h : x ∈ tableLineEntries l0) :
    (∃ a, x.1 = strip a) ∧ x.1 ≠ [] ∧ x.2.1 ≠ [] ∧
      (x.2.2 = [] ∨ ∃ b, x.2.2 = strip b) := by
  simp only [tableLineEntries] at h
  split at h
  · simp at h
  split at h
  · simp at h
  split at h
  · -- pipe-delimiter branch
    split at h
    next p0 p1 rest heq =>
      split at h
      next hguard =>
        rw [List.mem_singleton] at h
        subst h
        have hp0 : p0 ∈ (splitCh '|' (strip l0)).map strip := by
          rw [heq]; simp
        obtain ⟨a, _, ha⟩ := List.mem_map.mp hp0
        simp only [Bool.and_eq_true, Bool.not_eq_true', List.isEmpty_eq_false]
          at hguard
        refine ⟨⟨a, ha.symm⟩, hguard.1, hguard.2, ?_⟩
        cases rest with
        | nil => exact Or.inl rfl
        | cons r rs =>
          have hr : r ∈ (splitCh '|' (strip l0)).map strip := by
            rw [heq]; simp
          obtain ⟨b, _, hb⟩ := List.mem_map.mp hr
          exact Or.inr ⟨b, by simp [hb.symm]⟩
      · simp at h
    · simp at h
  · -- whitespace branch
    split at h
    next w0 w1 tl heq =>
      split at h
      · simp at h
      · rw [List.mem_singleton] at h
        subst h
        have hw0 : w0 ∈ ((splitWsRe (strip l0)).map strip).filter
            (fun w => !w.isEmpty) := by
          rw [heq]; simp
        have hw1 : w1 ∈ ((splitWsRe (strip l0)).map strip).filter
            (fun w => !w.isEmpty) := by
          rw [heq]; simp
        rw [List.mem_filter] at hw0 hw1
        obtain ⟨a, _, ha⟩ := List.mem_map.mp hw0.1
        refine ⟨⟨a, ha.symm⟩, ?_, ?_, Or.inl rfl⟩
        · simpa [List.isEmpty_eq_false] using hw0.2
        · simpa [List.isEmpty_eq_false] using hw1.2
    · simp at h

theorem adjacentEntries_shape {lang : String} :
    ∀ {lines : List Str} {x : Entry}, x ∈ adjacentEntries lang lines →
      (∃ a, x.1 = strip a) ∧ x.1 ≠ [] ∧ x.2.1 ≠ [] ∧ x.2.2 = [] := by
  intro lines
  induction lines with
  | nil => intro x h; simp [adjacentEntries] at h
  | cons l0 tl ih =>
    intro x h
    cases tl with
    | nil => simp [adjacentEntries] at h
    | cons l1 rest =>
      simp only [adjacentEntries] at h
      rw [List.mem_append] at h
      rcases h with h | h
      · split at h
        · simp at h
        · split at h
          next hguard =>
            rw [List.mem_singleton] at h
            subst h
            simp only [Bool.and_eq_true, Bool.not_eq_true',
              List.isEmpty_eq_false] at hguard
            exact ⟨⟨l0, rfl⟩, hguard.1.1.1.1, hguard.1.1.1.2, rfl⟩
          · simp at h
      · exact ih h

theorem smart_parse_shape {lang : String} {text : Str} {x : Entry}
    (h : x ∈ smart_parse_vocabulary lang text) :
    (∃ a, x.1 = strip a) ∧ x.1 ≠ [] ∧ x.2.1 ≠ [] ∧
      (x.2.2 = [] ∨ ∃ b, x.2.2 = strip b) := by
  unfold smart_parse_vocabulary at h
  rw [List.mem_append] at h
  rcases h with h | h
  · unfold parse_vocabulary_table at h
    rw [List.mem_flatten] at h
    obtain ⟨s, hs, hx⟩ := h
    obtain ⟨l, _, rfl⟩ := List.mem_map.mp hs
    exact tableLineEntries_shape hx
  · obtain ⟨h1, h2, h3, h4⟩ := adjacentEntries_shape h
    exact ⟨h1, h2, h3, Or.inl h4⟩

/-! ### Round trip of an appended line through load_existing_vocabulary -/

theorem fromImage_facts :
    strip ("from image".toList) = "from image".toList ∧
      ("from image".toList : Str) ≠ [] := by decide

theorem dflt_good {n : Str} (h : n = [] ∨ ∃ b, n = strip b) :
    dflt n ≠ [] ∧ strip (dflt n) = dflt n := by
  by_cases hn : n.isEmpty
  · rw [List.isEmpty_iff] at hn
    subst hn
    exact ⟨fromImage_facts.2, fromImage_facts.1⟩
  · have hne : n ≠ [] := by simpa [List.isEmpty_iff] using hn
    have hd : dflt n = n := by simp [dflt, hn]
    rcases h with h | ⟨b, hb⟩
    · exact absurd h hne
    · exact ⟨by rw [hd]; exact hne, by rw [hd, hb, strip_idem]⟩

theorem getLast?_cons_ne {b : Str} (c : Char) (hb : b ≠ []) :
    (c :: b).getLast? = b.getLast? := by
  show (([c] : Str) ++ b).getLast? = b.getLast?
  exact List.getLast?_append_of_ne_nil _ hb

theorem lineKey_entryLine {f e n : Str}
    (hf0 : f ≠ []) (hfs : strip f = f) (hbar : '|' ∉ f)
    (hn0 : n ≠ []) (hns : strip n = n) :
    lineKey (entryLine (f, e, n)) = some (strLower f) := by
  have hform : entryLine (f, e, n) = f ++ '|' :: (e ++ '|' :: n) := by
    simp [entryLine]
  have hL : strip (entryLine (f, e, n)) = entryLine (f, e, n) := by
    apply strip_of_ends
    · intro c hc
      rw [hform] at hc
      cases f with
      | nil => exact absurd rfl hf0
      | cons a as =>
        simp only [List.cons_append, List.head?_cons, Option.some.injEq] at hc
        have ha : isWs a = false :=
          strip_head?_false (show (strip (a :: as)).head? = some a by
            rw [hfs]; rfl)
        rw [hc] at ha
        exact ha
    · intro c hc
      rw [hform] at hc
      rw [List.getLast?_append_of_ne_nil _
        (by simp : ('|' :: (e ++ '|' :: n) : Str) ≠ [])] at hc
      rw [getLast?_cons_ne '|' (by simp : (e ++ '|' :: n : Str) ≠ [])] at hc
      rw [List.getLast?_append_of_ne_nil _
        (by simp : ('|' :: n : Str) ≠ [])] at hc
      rw [getLast?_cons_ne '|' hn0] at hc
      exact strip_getLast?_false (show (strip n).getLast? = some c by
        rw [hns]; exact hc)
  have hmem : ('|' : Char) ∈ entryLine (f, e, n) := by
    rw [hform]
    exact List.mem_append_right _ (by simp)
  simp only [lineKey, hL]
  rw [if_pos (by simpa using hmem)]
  have hsplit : splitCh '|' (entryLine (f, e, n)) =
      f :: splitCh '|' (e ++ '|' :: n) := by
    rw [hform]
    exact splitCh_append_sep hbar _
  rw [hsplit]
  simp only [List.headD_cons]
  rw [hfs]

theorem loadKeys_entryLines {out : List Entry}
    (hout : ∀ x ∈ out, x.1 ≠ [] ∧ strip x.1 = x.1 ∧ '|' ∉ x.1 ∧
        x.2.2 ≠ [] ∧ strip x.2.2 = x.2.2) :
    loadKeys (out.map entryLine) = out.map (fun x => strLower x.1) := by
  induction out with
  | nil => rfl
  | cons x rest ih =>
    obtain ⟨h1, h2, h3, h4, h5⟩ := hout x (by simp)
    obtain ⟨f, e, n⟩ := x
    simp only [List.map_cons, loadKeys, List.filterMap_cons]
    rw [lineKey_entryLine h1 h2 h3 h4 h5]
    have := ih (fun y hy => hout y (List.mem_cons_of_mem _ hy))
    simp only [loadKeys] at this
    rw [this]

/-- Shape facts needed about one candidate for it to survive the
write-then-reload round trip with its key intact. -/
def goodCand (x : Entry) : Prop :=
  (∃ a, x.1 = strip a) ∧ x.1 ≠ [] ∧ (x.2.2 = [] ∨ ∃ b, x.2.2 = strip b) ∧
    '|' ∉ x.1

theorem append_keys_super {file : List Str} {vocab : List Entry}
    (hgood : ∀ x ∈ vocab, goodCand x) :
    ∀ c ∈ vocab, strLower c.1 ∈ loadKeys (append_vocabulary file vocab).1 := by
  intro c hc
  have hvnil : vocab.isEmpty = false := by
    cases vocab with
    | nil => simp at hc
    | cons a l => rfl
  simp only [append_vocabulary, hvnil, Bool.false_eq_true, if_false]
  have houtShape : ∀ x ∈ (mergeGo (loadKeys file) vocab).2,
      x.1 ≠ [] ∧ strip x.1 = x.1 ∧ '|' ∉ x.1 ∧
        x.2.2 ≠ [] ∧ strip x.2.2 = x.2.2 := by
    intro x hx
    obtain ⟨c', hc', hxeq⟩ := mergeGo_entry_shape hx
    obtain ⟨⟨a, ha⟩, hne, hnote, hbar⟩ := hgood c' hc'
    obtain ⟨hd1, hd2⟩ := dflt_good hnote
    subst hxeq
    refine ⟨hne, ?_, hbar, hd1, hd2⟩
    rw [ha, strip_idem]
  by_cases hout : (mergeGo (loadKeys file) vocab).2.isEmpty
  · rw [if_pos hout]
    exact mergeGo_nil_out (List.isEmpty_iff.mp hout) c hc
  · rw [if_neg hout]
    rw [loadKeys_append, loadKeys_entryLines houtShape]
    have hk : strLower c.1 ∈ (mergeGo (loadKeys file) vocab).1 :=
      mergeGo_all_keys c hc
    rw [mergeGo_fst, List.mem_append] at hk
    rcases hk with hk | hk
    · rw [List.mem_reverse] at hk
      exact List.mem_append_right _ hk
    · exact List.mem_append_left _ hk

/-! ### Claim C1: idempotence of the pipeline -/

/-- Claim C1, refuted at a concrete input: for the single image text
consisting of the line Hund-bar-dog followed by the line x, in language
German, the adjacent-line strategy emits a candidate whose source term
itself contains the bar delimiter; re-running merge with the same parse
output against the store persisted by the first run accepts that
candidate a second time (1 new entry, not 0). -/
theorem C1_counterexample :
    (append_vocabulary
        (append_vocabulary []
          (smart_parse_vocabulary "German" ("Hund|dog\nx".toList))).1
        (smart_parse_vocabulary "German" ("Hund|dog\nx".toList))).2 = 1 ∧
      (append_vocabulary
        (append_vocabulary []
          (smart_parse_vocabulary "German" ("Hund|dog\nx".toList))).1
        (smart_parse_vocabulary "German" ("Hund|dog\nx".toList))).2 ≠ 0 := by
  decide

/-- Claim C1 (amended): the pipeline is idempotent for every input whose
parsed candidates' source terms contain no vertical-bar character — then
re-running merge plus persist with the same parse output against the store
file persisted by the first run accepts nothing: the file is unchanged and
the count of new entries is zero. -/
theorem C1_idempotent_no_bar (lang : String) (text : Str) (file : List Str)
    (hbar : ∀ x ∈ smart_parse_vocabulary lang text, '|' ∉ x.1) :
    append_vocabulary
        (append_vocabulary file (smart_parse_vocabulary lang text)).1
        (smart_parse_vocabulary lang text) =
      ((append_vocabulary file (smart_parse_vocabulary lang text)).1, 0) := by
  have hgood : ∀ x ∈ smart_parse_vocabulary lang text, goodCand x := by
    intro x hx
    obtain ⟨h1, h2, _, h4⟩ := smart_parse_shape hx
    exact ⟨h1, h2, h4, hbar x hx⟩
  have hkeys : ∀ c ∈ smart_parse_vocabulary lang text,
      strLower c.1 ∈ loadKeys
        (append_vocabulary file (smart_parse_vocabulary lang text)).1 :=
    append_keys_super hgood
  by_cases hvnil : (smart_parse_vocabulary lang text).isEmpty = true
  · simp [append_vocabulary, hvnil]
  · have hv : (smart_parse_vocabulary lang text).isEmpty = false := by
      simpa using hvnil
    set file1 :=
      (append_vocabulary file (smart_parse_vocabulary lang text)).1
      with hfile1
    have hnone : mergeGo (loadKeys file1) (smart_parse_vocabulary lang text) =
        (loadKeys file1, []) :=
      mergeGo_none (fun c hc => hkeys c hc)
    simp only [append_vocabulary, hv, Bool.false_eq_true, if_false, hnone]
    simp

/-- Witness for C1 at a concrete bar-free input. -/
theorem C1_idempotent_no_bar_witness :
    append_vocabulary
        (append_vocabulary []
          (smart_parse_vocabulary "German" ("Hund | dog".toList))).1
        (smart_parse_vocabulary "German" ("Hund | dog".toList)) =
      ((append_vocabulary []
          (smart_parse_vocabulary "German" ("Hund | dog".toList))).1, 0) :=
  C1_idempotent_no_bar "German" ("Hund | dog".toList) [] (by decide)

/-! ### Claim C8: no write when every candidate is a duplicate -/

/-- Claim C8: with the store file already holding the line
Hund-bar-dog-bar-from image, the image text Hund-space-bar-space-dog adds
zero new entries and leaves the file contents unchanged, for every
language; and in general, whenever every candidate's key is already in the
loaded key set, append_vocabulary returns the file unchanged with count
zero (the write branch is never entered). -/
theorem C8_no_write_all_dup :
    (∀ lang : String,
      append_vocabulary ["Hund|dog|from image".toList]
          (smart_parse_vocabulary lang ("Hund | dog".toList)) =
        (["Hund|dog|from image".toList], 0)) ∧
      ∀ (file : List Str) (vocab : List Entry),
        (∀ c ∈ vocab, strLower c.1 ∈ loadKeys file) →
        append_vocabulary file vocab = (file, 0) := by
  constructor
  · intro lang
    have hadj : adjacentEntries lang (splitCh '\n' ("Hund | dog".toList)) =
        [] := rfl
    have hsp : smart_parse_vocabulary lang ("Hund | dog".toList) =
        [("Hund".toList, "dog".toList, ([] : Str))] := by
      unfold smart_parse_vocabulary
      rw [hadj, List.append_nil]
      decide
    rw [hsp]
    decide
  · intro file vocab h
    have hm : mergeGo (loadKeys file) vocab = (loadKeys file, []) :=
      mergeGo_none h
    cases vocab with
    | nil => rfl
    | cons a l =>
      simp only [append_vocabulary, List.isEmpty_cons, Bool.false_eq_true,
        if_false, hm]
      simp

/-- Witness for C8's two parts at concrete inputs. -/
theorem C8_no_write_all_dup_witness :
    append_vocabulary ["Hund|dog|from image".toList]
        (smart_parse_vocabulary "German" ("Hund | dog".toList)) =
      (["Hund|dog|from image".toList], 0) ∧
    append_vocabulary ["Hund|dog|from image".toList]
        [("HUND".toList, "cat".toList, ([] : Str))] =
      (["Hund|dog|from image".toList], 0) :=
  ⟨C8_no_write_all_dup.1 "German",
   C8_no_write_all_dup.2 _ _ (by decide)⟩

/-! ### Claim C9: adjacent-line strategy on language German -/

/-- Claim C9: for language German the two-line text Apfel, apple parses to
exactly the single triple (Apfel, apple, empty note); the table strategy
contributes nothing, Apfel has no character outside 7-bit ASCII, and
German is in the fixed foreign-script-prone language set. -/
theorem C9_adjacent_german :
    smart_parse_vocabulary "German" ("Apfel\napple".toList) =
        [("Apfel".toList, "apple".toList, ([] : Str))] ∧
      parse_vocabulary_table ("Apfel\napple".toList) = [] ∧
      hasForeignChars ("Apfel".toList) = false ∧
      ("German" : String) ∈ foreignScriptLangs := by
  refine ⟨by decide, by decide, by decide, by decide⟩

/-! ### Claim C2: noise filtering by denylist -/

/-- The four language names of the claimed denylist. -/
def langWords : List Str :=
  ["german".toList, "english".toList, "spanish".toList, "french".toList]

/-- Does a line case-insensitively contain one of the four language
names? -/
def langNoisy (l : Str) : Bool :=
  langWords.any (fun w => subIn w (strLower l))

theorem langNoisy_table {l : Str} (h : langNoisy l = true) :
    isTableHeader l = true := by
  rw [langNoisy, List.any_eq_true] at h
  obtain ⟨w, hw, hsub⟩ := h
  rw [isTableHeader, List.any_eq_true]
  exact ⟨w, (by decide : ∀ w ∈ langWords, w ∈ tableHeaders) w hw, hsub⟩

theorem langNoisy_smart {l : Str} (h : langNoisy l = true) :
    isSmartHeader l = true := by
  rw [langNoisy, List.any_eq_true] at h
  obtain ⟨w, hw, hsub⟩ := h
  rw [isSmartHeader, List.any_eq_true]
  exact ⟨w, (by decide : ∀ w ∈ langWords, w ∈ smartHeaders) w hw, hsub⟩

/-- Claim C2, refuted at a concrete input: the line weak-bar-dog
case-insensitively contains the denylist word weak, yet the delimited
table strategy emits the triple (weak, dog, empty) from it — the pipe
branch of parse_vocabulary_table never consults the strength/progress
denylist, and smart_parse_vocabulary keeps that triple. -/
theorem C2_counterexample :
    subIn ("weak".toList) (strLower ("weak | dog".toList)) = true ∧
      smart_parse_vocabulary "German" ("weak | dog".toList) =
        [("weak".toList, "dog".toList, ([] : Str))] := by decide

/-- Claim C2 (amended): only the four language names are line-level noise
for both strategies — a line case-insensitively containing german,
english, spanish or french yields nothing in the table strategy, and no
triple emitted by the adjacent-line strategy has such a line as its
source term.  (The strength/progress labels and the word translation are
not filtered in all branches.) -/
theorem C2_language_noise (line0 : Str) (lang : String) (lines : List Str)
    (x : Entry) :
    (langNoisy (strip line0) = true → tableLineEntries line0 = []) ∧
      (x ∈ adjacentEntries lang lines → langNoisy x.1 = false) := by
  constructor
  · intro h
    have hh := langNoisy_table h
    simp only [tableLineEntries, hh, if_true]
    split
    · rfl
    · rfl
  · induction lines with
    | nil => intro h; simp [adjacentEntries] at h
    | cons l0 tl ih =>
      intro h
      cases tl with
      | nil => simp [adjacentEntries] at h
      | cons l1 rest =>
        simp only [adjacentEntries] at h
        rw [List.mem_append] at h
        rcases h with h | h
        · split at h
          next hcond => simp at h
          next hcond =>
            split at h
            · rw [List.mem_singleton] at h
              subst h
              simp only [Bool.or_eq_true, not_or, Bool.not_eq_true] at hcond
              by_contra hcontra
              rw [Bool.not_eq_false] at hcontra
              exact absurd (langNoisy_smart hcontra) (by simp [hcond.2])
            · simp at h
        · exact ih h

/-- Witness for C2 at concrete inputs: a language-name header line yields
nothing in the table strategy, and a concrete adjacent-line emission has
a language-name-free source. -/
theorem C2_language_noise_witness :
    tableLineEntries ("German          English".toList) = [] ∧
      langNoisy ("Apfel".toList) = false :=
  ⟨(C2_language_noise ("German          English".toList) "German" []
      ([], [], [])).1 (by decide),
   (C2_language_noise [] "German" ["Apfel".toList, "apple".toList]
      ("Apfel".toList, "apple".toList, ([] : Str))).2 (by decide)⟩

/-! ### Claim C3: run summary and skipped images -/

/-- Claim C3, refuted at a concrete input: an image whose OCR text is
empty contributes zero entries and raises no error, but its file name
does NOT appear in the run summary's processed-files list — the loop
skips it before the append step that records the name. -/
theorem C3_counterexample :
    process_directory "German" []
        [("a.png", ([] : Str)), ("b.png", ("Hund | dog".toList))] =
      some ⟨["b.png"], 1, ["Hund|dog|from image".toList]⟩ ∧
      ("a.png" : String) ∉ (["b.png"] : List String) := by decide

/-- Claim C3 (amended): an image whose OCR text is empty or yields no
parseable vocabulary contributes zero new entries, raises no error and
leaves the batch state — including the processed-files list, which
therefore does NOT gain the image's name — exactly unchanged, and the
fold continues with the next image. -/
theorem C3_skipped_images (lang : String) (st : RunResult) (name : String)
    (t : Str)
    (h : strip t = [] ∨ smart_parse_vocabulary lang (strip t) = []) :
    processOne lang st (name, t) = st := by
  rcases h with h | h
  · simp [processOne, h]
  · simp only [processOne]
    split
    · rfl
    · simp [h]

/-- Witness for C3 at a concrete no-text image. -/
theorem C3_skipped_images_witness :
    processOne "German" ⟨[], 0, []⟩ ("a.png", ([] : Str)) = ⟨[], 0, []⟩ :=
  C3_skipped_images "German" ⟨[], 0, []⟩ "a.png" [] (Or.inl (by decide))

/-! ### Claim C4: emission condition of the pipe branch -/

/-- Claim C4, refuted at a concrete input: in the non-noise line
bar-a-bar-b, splitting on the bar and trimming gives three parts of which
two are non-empty, yet nothing is emitted — the code requires the FIRST
TWO parts to be non-empty, not that at least two non-empty parts exist
somewhere. -/
theorem C4_counterexample :
    2 ≤ (((splitCh '|' (strip ("|a|b".toList))).map strip).filter
        (fun p => !p.isEmpty)).length ∧
      isTableHeader (strip ("|a|b".toList)) = false ∧
      (strip ("|a|b".toList)).contains '|' = true ∧
      tableLineEntries ("|a|b".toList) = [] := by decide

/-- Claim C4 (amended): for a non-noise line containing the bar
delimiter, with parts the bar-split of the trimmed line trimmed
part-wise, the table strategy emits exactly the triple
(part 0, part 1, part 2 or empty) when part 0 and part 1 are both
non-empty, and emits nothing from the line otherwise. -/
theorem C4_pipe_emission (line0 : Str) (p0 p1 : Str) (rest : List Str)
    (hh : isTableHeader (strip line0) = false)
    (hb : (strip line0).contains '|' = true)
    (hsplit : (splitCh '|' (strip line0)).map strip = p0 :: p1 :: rest) :
    ((p0 ≠ [] ∧ p1 ≠ []) →
        tableLineEntries line0 = [(p0, p1, rest.headD [])]) ∧
      ((p0 = [] ∨ p1 = []) → tableLineEntries line0 = []) := by
  have hne : (strip line0).isEmpty = false := by
    cases hsl : strip line0 with
    | nil => rw [hsl] at hb; simp at hb
    | cons a l => rfl
  have key : tableLineEntries line0 =
      if (!p0.isEmpty && !p1.isEmpty) = true then [(p0, p1, rest.headD [])]
      else [] := by
    simp only [tableLineEntries]
    rw [if_neg (by simp [hne]), if_neg (by simp [hh]), if_pos hb, hsplit]
  constructor
  · rintro ⟨h0, h1⟩
    have e0 : p0.isEmpty = false := by
      cases p0 with
      | nil => exact absurd rfl h0
      | cons a l => rfl
    have e1 : p1.isEmpty = false := by
      cases p1 with
      | nil => exact absurd rfl h1
      | cons a l => rfl
    rw [key, if_pos (show (!p0.isEmpty && !p1.isEmpty) = true by
      rw [e0, e1]; rfl)]
  · intro h
    rcases h with h | h
    · have e0 : p0.isEmpty = true := by rw [h]; rfl
      rw [key, if_neg (by rw [e0]; simp)]
    · have e1 : p1.isEmpty = true := by rw [h]; rfl
      rw [key, if_neg (by rw [e1]; simp)]

/-- Witness for C4 at the concrete line a-bar-b. -/
theorem C4_pipe_emission_witness :
    tableLineEntries ("a|b".toList) =
      [("a".toList, "b".toList, ([] : Str))] :=
  (C4_pipe_emission ("a|b".toList) ("a".toList) ("b".toList) []
      (by decide) (by decide) (by decide)).1 ⟨by decide, by decide⟩

/-! ### Claim C5: first occurrence wins within one merge -/

theorem mergeGo_filter_notmem {E : List Str} {vocab : List Entry} {k : Str}
    (hk : k ∈ E) :
    ((mergeGo E vocab).2.filter (fun x => strLower x.1 == k)) = [] := by
  rw [List.filter_eq_nil_iff]
  intro x hx
  have hnot := mergeGo_key_notin hx
  simp only [beq_iff_eq]
  intro heq
  exact hnot (heq ▸ hk)

theorem mergeGo_filter_find {vocab : List Entry} :
    ∀ {E : List Str} {k : Str} {c₀ : Entry}, k ∉ E →
      vocab.find? (fun c => strLower c.1 == k) = some c₀ →
      ((mergeGo E vocab).2.filter (fun x => strLower x.1 == k)) =
        [(c₀.1, c₀.2.1, dflt c₀.2.2)] := by
  induction vocab with
  | nil => intro E k c₀ _ hf; simp at hf
  | cons c rest ih =>
    intro E k c₀ hkE hf
    obtain ⟨f, e, n⟩ := c
    by_cases hfk : (strLower f == k) = true
    · rw [List.find?_cons] at hf
      simp only [hfk] at hf
      have hc₀ : c₀ = (f, e, n) := (Option.some.inj hf).symm
      subst hc₀
      rw [beq_iff_eq] at hfk
      have hEc : E.contains (strLower f) = false := by
        rw [Bool.eq_false_iff]
        intro hcon
        exact hkE (hfk ▸ (by simpa using hcon))
      simp only [mergeGo, hEc, Bool.false_eq_true, if_false]
      rw [List.filter_cons_of_pos (by simpa using hfk)]
      rw [mergeGo_filter_notmem (by rw [← hfk]; exact List.mem_cons_self _ _)]
    · have hfk2 : (strLower f == k) = false := by simpa using hfk
      rw [List.find?_cons] at hf
      simp only [hfk2] at hf
      by_cases hE : E.contains (strLower f) = true
      · simp only [mergeGo, hE, if_true]
        exact ih hkE hf
      · simp only [mergeGo, hE, Bool.false_eq_true, if_false]
        rw [List.filter_cons_of_neg (by simpa using hfk)]
        refine ih ?_ hf
        rw [List.mem_cons, not_or]
        refine ⟨?_, hkE⟩
        intro heq
        exact hfk (by rw [heq]; simp)

/-- Claim C5: within one merge, the first candidate bearing a given key
wins — if the key is not already in the existing set, the accepted
entries contain exactly one entry with that key, namely the one derived
(with defaulted note) from the FIRST candidate carrying it in input
order; every later candidate with the same key, whatever its target
term, is silently discarded.  If the key was already in the existing set,
no entry with it is accepted at all. -/
theorem C5_first_wins (E : List Str) (vocab : List Entry) (k : Str) :
    (k ∈ E →
        ((mergeGo E vocab).2.filter (fun x => strLower x.1 == k)) = []) ∧
      (k ∉ E → ∀ c₀, vocab.find? (fun c => strLower c.1 == k) = some c₀ →
        ((mergeGo E vocab).2.filter (fun x => strLower x.1 == k)) =
          [(c₀.1, c₀.2.1, dflt c₀.2.2)]) :=
  ⟨fun hk => mergeGo_filter_notmem hk,
   fun hk _ hf => mergeGo_filter_find hk hf⟩

/-- Witness for C5: Hund then hund with different targets — only the
first is accepted. -/
theorem C5_first_wins_witness :
    ((mergeGo []
        [("Hund".toList, "dog".toList, ([] : Str)),
         ("hund".toList, "cat".toList, ([] : Str))]).2.filter
      (fun x => strLower x.1 == "hund".toList)) =
      [("Hund".toList, "dog".toList, "from image".toList)] :=
  (C5_first_wins []
      [("Hund".toList, "dog".toList, ([] : Str)),
       ("hund".toList, "cat".toList, ([] : Str))] ("hund".toList)).2
    (by decide) ("Hund".toList, "dog".toList, ([] : Str)) (by decide)

/-! ### Claim C6: case-insensitive store key -/

/-- Claim C6: two source terms that lowercase identically map to the same
store key — if the shared key is already in the existing set the
candidate is rejected, and if it is fresh, the first of the two
candidates is accepted and the second rejected within the same merge. -/
theorem C6_case_key (E : List Str) (f g e n e' n' : Str)
    (hfg : strLower f = strLower g) :
    (strLower f ∈ E → (mergeGo E [(g, e', n')]).2 = []) ∧
      (strLower f ∉ E →
        (mergeGo E [(f, e, n), (g, e', n')]).2 = [(f, e, dflt n)]) := by
  constructor
  · intro hmem
    simp [mergeGo, ← hfg, hmem]
  · intro hnot
    simp [mergeGo, ← hfg, hnot]

/-- Witness for C6 with the pair Hund and hund of the spec. -/
theorem C6_case_key_witness :
    (mergeGo ["hund".toList]
        [("HUND".toList, "cat".toList, ([] : Str))]).2 = [] ∧
      (mergeGo []
        [("Hund".toList, "dog".toList, ([] : Str)),
         ("hund".toList, "cat".toList, ([] : Str))]).2 =
        [("Hund".toList, "dog".toList, "from image".toList)] :=
  ⟨(C6_case_key ["hund".toList] ("hund".toList) ("HUND".toList)
      [] [] ("cat".toList) [] (by decide)).1 (by decide),
   (C6_case_key [] ("Hund".toList) ("hund".toList)
      ("dog".toList) [] ("cat".toList) [] (by decide)).2 (by decide)⟩

/-! ### Claim C7: the store is append-only -/

/-- A sequence of load-merge-persist cycles starting from a store file. -/
def runAll (file : List Str) (runs : List (List Entry)) : List Str :=
  runs.foldl (fun f v => (append_vocabulary f v).1) file

theorem append_vocabulary_suffix (file : List Str) (vocab : List Entry) :
    ∃ s, (append_vocabulary file vocab).1 = file ++ s := by
  by_cases hv : vocab.isEmpty = true
  · exact ⟨[], by simp [append_vocabulary, hv]⟩
  · by_cases ho : (mergeGo (loadKeys file) vocab).2.isEmpty = true
    · exact ⟨[], by simp [append_vocabulary, hv, ho]⟩
    · exact ⟨(mergeGo (loadKeys file) vocab).2.map entryLine,
        by simp [append_vocabulary, hv, ho]⟩

theorem fileBytes_append (a b : List Str) :
    fileBytes (a ++ b) = fileBytes a ++ fileBytes b := by
  simp [fileBytes]

/-- Claim C7: across any sequence of load-merge-persist cycles the file
only grows at the end — the old line list (hence the old byte sequence)
is a prefix of the new one, and every key loadable before is loadable
after (the distinct lowercase source-term set is non-decreasing). -/
theorem C7_append_only (file : List Str) (runs : List (List Entry)) :
    ∃ s, runAll file runs = file ++ s ∧
      fileBytes (runAll file runs) = fileBytes file ++ fileBytes s ∧
      ∀ k ∈ loadKeys file, k ∈ loadKeys (runAll file runs) := by
  induction runs generalizing file with
  | nil =>
    exact ⟨[], by simp [runAll], by simp [runAll, fileBytes],
      fun k hk => by simpa [runAll] using hk⟩
  | cons v rest ih =>
    obtain ⟨s1, hs1⟩ := append_vocabulary_suffix file v
    obtain ⟨s2, h2, _, _⟩ := ih ((append_vocabulary file v).1)
    have e0 : runAll file (v :: rest) =
        runAll (append_vocabulary file v).1 rest := rfl
    have e1 : runAll file (v :: rest) = file ++ (s1 ++ s2) := by
      rw [e0, h2, hs1, List.append_assoc]
    refine ⟨s1 ++ s2, e1, ?_, ?_⟩
    · rw [e1, fileBytes_append]
    · intro k hk
      rw [e1, loadKeys_append]
      exact List.mem_append_left _ hk

/-- Witness for C7 at a concrete store and run. -/
theorem C7_append_only_witness :
    ∃ s, runAll ["Hund|dog|from image".toList]
        [[("Katze".toList, "cat".toList, ([] : Str))]] =
        ["Hund|dog|from image".toList] ++ s ∧
      fileBytes (runAll ["Hund|dog|from image".toList]
          [[("Katze".toList, "cat".toList, ([] : Str))]]) =
        fileBytes ["Hund|dog|from image".toList] ++ fileBytes s ∧
      ∀ k ∈ loadKeys ["Hund|dog|from image".toList],
        k ∈ loadKeys (runAll ["Hund|dog|from image".toList]
          [[("Katze".toList, "cat".toList, ([] : Str))]]) :=
  C7_append_only _ _

/-! ### Claim C10: non-empty fields invariant -/

/-- Claim C10: every triple either strategy emits has non-empty source
and target terms, and every entry the merge accepts for appending has
non-empty source, target and note (an empty note is replaced by the
marker from image). -/
theorem C10_nonempty_fields (lang : String) (text : Str) (file : List Str) :
    (∀ x ∈ smart_parse_vocabulary lang text, x.1 ≠ [] ∧ x.2.1 ≠ []) ∧
      ∀ x ∈ (mergeGo (loadKeys file) (smart_parse_vocabulary lang text)).2,
        x.1 ≠ [] ∧ x.2.1 ≠ [] ∧ x.2.2 ≠ [] := by
  constructor
  · intro x hx
    obtain ⟨_, h2, h3, _⟩ := smart_parse_shape hx
    exact ⟨h2, h3⟩
  · intro x hx
    obtain ⟨c, hc, hxeq⟩ := mergeGo_entry_shape hx
    obtain ⟨_, h2, h3, _⟩ := smart_parse_shape hc
    subst hxeq
    exact ⟨h2, h3, dflt_ne_nil _⟩

/-- Witness for C10 at a concrete parse and merge. -/
theorem C10_nonempty_fields_witness :
    ("Hund".toList : Str) ≠ [] ∧ ("dog".toList : Str) ≠ [] :=
  (C10_nonempty_fields "German" ("Hund | dog".toList) []).1
    ("Hund".toList, "dog".toList, ([] : Str)) (by decide)

end Vocab
